import Mathlib

/-!
Verification of the perpetual-futures snapshot dashboard pipeline.

The development shallowly embeds the data pipeline of `streamlit.py`:
the exchange allow-list filter (`fetch_data`), the joblib disk cache
(`get_data`), the best-contract-per-(token, market) reduction (`df_best`),
the top-100 token ranking (`top_tokens`), the two pivoted display tables
(`funding_table`, `oi_table`), the cell formatters, and the funding-rate
color classifier (`color_funding`).

Conventions of the embedding:
* numeric JSON fields are exact rationals (`ℚ`); a missing / null numeric
  field is `Option.none`;
* timestamps are rationals counting seconds (only differences matter);
* Python exceptions are `Except` values: an operation with no handler that
  raises is an `Except.error` result;
* pandas `sort_values` is modelled by a sort w.r.t. the same key
  (ties between distinct records are implementation-defined in the source,
  `quicksort`, and are irrelevant to every property proved here);
* `DataFrame.groupby(...).first()` takes, per column, the first non-null
  value of the group in sorted order (pandas `GroupBy.first` semantics);
* `pivot_table` with its default `dropna=True` drops (index, column) group
  keys whose aggregated value is null before unstacking, and sorts the
  resulting row and column labels (pandas `__internal_pivot_table`
  semantics: `agged.dropna(how="all")` on the grouped value column).
-/

/-! ## Definitions: exchange allow-list and fetch (lines 21–74) -/

def EXCHANGE_LIST : List (String × String) := [
  ("binance_futures", "Binance (Futures)"),
  ("bitget_futures", "Bitget Futures"),
  ("bybit", "Bybit (Futures)"),
  ("coinw_futures", "CoinW (Futures)"),
  ("gate_futures", "Gate (Futures)"),
  ("hyperliquid", "Hyperliquid (Futures)"),
  ("weex-futures", "WEEX (Futures)"),
  ("okex_swap", "OKX (Futures)"),
  ("xt_derivatives", "XT.COM (Derivatives)"),
  ("huobi_dm", "HTX Futures"),
  ("coincatch_derivatives", "CoinCatch Derivatives"),
  ("mxc_futures", "MEXC (Futures)"),
  ("bitmart_futures", "Bitmart Futures"),
  ("whitebit_futures", "WhiteBIT Futures"),
  ("toobit_derivatives", "Toobit Futures"),
  ("bingx_futures", "BingX (Futures)"),
  ("deepcoin_derivatives", "Deepcoin (Derivatives)"),
  ("dmex", "DMEX"),
  ("kumex", "KuCoin Futures"),
  ("lbank-futures", "LBank (Futures)"),
  ("deribit", "Deribit")]

/-- The Python set comprehension over the display names (line 44). -/
def ALLOWED_MARKETS : List String := (EXCHANGE_LIST.map Prod.snd).dedup

/-- One item of the upstream JSON response.  `market` is `none` when the
key is absent (the code reads it with `.get`); the remaining fields are
read with mandatory indexing, numeric ones possibly null. -/
structure RawItem where
  market : Option String
  symbol : String
  index_id : String
  open_interest : Option ℚ
  funding_rate : Option ℚ
  volume_24h : Option ℚ
deriving DecidableEq

/-- One row of the filtered DataFrame built by `fetch_data`
(lines 62–73). -/
structure ContractRecord where
  market : String
  symbol : String
  index_id : String
  open_interest : Option ℚ
  funding_rate : Option ℚ
  volume_24h : Option ℚ
  fetched_at : ℚ
deriving DecidableEq

/-- Line 103: `df_db["token"] = df_db["index_id"]`. -/
def ContractRecord.token (r : ContractRecord) : String := r.index_id

/-- The record stamped from a kept upstream item. -/
def stampItem (now : ℚ) (it : RawItem) (m : String) : ContractRecord :=
  ⟨m, it.symbol, it.index_id, it.open_interest, it.funding_rate,
    it.volume_24h, now⟩

/-- Lines 52–74: keep an item iff its `market` value is present and a
member of `ALLOWED_MARKETS`; stamp every kept record with the single
fetch time. -/
def fetch_data (now : ℚ) (items : List RawItem) : List ContractRecord :=
  items.filterMap fun it =>
    match it.market with
    | some m => if m ∈ ALLOWED_MARKETS then some (stampItem now it m) else none
    | none => none

/-! ## Definitions: joblib cache wrapper (lines 46–91) -/

/-- Line 48: `CACHE_TTL = 60 * 60 * 4`. -/
def CACHE_TTL : ℚ := 60 * 60 * 4

/-- The on-disk cache file content: either bytes `joblib.load` fails on,
or a deserializable snapshot dict (whose `fetched_at` key may be
absent / `None`, read with `.get`). -/
inductive Artifact where
  | corrupt : Artifact
  | snapshot (data : List ContractRecord) (fetched_at : Option ℚ) : Artifact
deriving DecidableEq

/-- Whether the `joblib.dump` call on line 89 succeeds. -/
inductive DumpOutcome where
  | ok : DumpOutcome
  | fail : DumpOutcome
deriving DecidableEq

/-- Exceptions the cache wrapper can raise (it installs no handler). -/
inductive CacheError where
  | loadError : CacheError
  | dumpError : CacheError
deriving DecidableEq

/-- Result of one `get_data()` call: the returned value or the escaped
exception, the cache file afterwards, and whether `fetch_data` ran. -/
structure GDResult where
  result : Except CacheError (List ContractRecord)
  file : Option Artifact
  fetchCalled : Bool

/-- Lines 87–91: fetch fresh data, dump it, return it.  A failing dump
raises out of `get_data` (there is no `try`). -/
def get_data_refresh (now : ℚ) (upstream : List RawItem)
    (dump : DumpOutcome) (file : Option Artifact) : GDResult :=
  match dump with
  | DumpOutcome.ok =>
      ⟨Except.ok (fetch_data now upstream),
        some (Artifact.snapshot (fetch_data now upstream) (some now)), true⟩
  | DumpOutcome.fail => ⟨Except.error CacheError.dumpError, file, true⟩

/-- Lines 78–91.  `file = none` models a missing cache file
(`os.path.exists` false); a `corrupt` artifact makes `joblib.load`
raise, and the exception escapes. -/
def get_data (now : ℚ) (upstream : List RawItem)
    (dump : DumpOutcome) (file : Option Artifact) : GDResult :=
  match file with
  | some Artifact.corrupt => ⟨Except.error CacheError.loadError, file, false⟩
  | some (Artifact.snapshot d ft) =>
      match ft with
      | some t =>
          if now - t < CACHE_TTL then ⟨Except.ok d, file, false⟩
          else get_data_refresh now upstream dump file
      | none => get_data_refresh now upstream dump file
  | none => get_data_refresh now upstream dump file

/-! ## Definitions: digit strings and Python number formatting -/

/-- The character of one decimal digit. -/
def digitChar (d : ℕ) : Char :=
  match d with
  | 0 => '0' | 1 => '1' | 2 => '2' | 3 => '3' | 4 => '4'
  | 5 => '5' | 6 => '6' | 7 => '7' | 8 => '8' | _ => '9'

/-- The numeric value of a decimal digit character. -/
def charVal (c : Char) : ℕ := c.toNat - 48

/-- Bool test for a decimal digit character. -/
def isDig (c : Char) : Bool := decide ('0' ≤ c) && decide (c ≤ '9')

/-- Little-endian base-10 digit expansion with fuel, so that terms
reduce by kernel computation. -/
def natDigitsAux : ℕ → ℕ → List ℕ
  | 0, _ => []
  | _ + 1, 0 => []
  | fuel + 1, n + 1 => (n + 1) % 10 :: natDigitsAux fuel ((n + 1) / 10)

/-- Little-endian base-10 digit expansion. -/
def natDigits (n : ℕ) : List ℕ := natDigitsAux n n

/-- Most-significant-digit-first decimal rendering of a natural number,
as Python renders the integral part of a number. -/
def natRepr (n : ℕ) : List Char :=
  if n = 0 then ['0'] else ((natDigits n).map digitChar).reverse

/-- Reading of a nonempty all-digit character list as a natural number. -/
def parseNatD (cs : List Char) : Option ℕ :=
  if cs ≠ [] ∧ cs.all isDig = true then
    some (Nat.ofDigits 10 (cs.reverse.map charVal))
  else none

/-- Left-padding with zeros to a fixed width, as Python produces the
fractional part of a fixed-point format. -/
def padLeft (k : ℕ) (cs : List Char) : List Char :=
  List.replicate (k - cs.length) '0' ++ cs

/-- Floor of a rational, written so that it reduces by kernel
computation. -/
def ratFloor (x : ℚ) : ℤ := x.num / x.den

/-- Round to the nearest integer, ties to the even integer, as the C
runtime rounds when Python formats a binary float at a fixed
precision. -/
def roundHalfEven (x : ℚ) : ℤ :=
  if x - (ratFloor x : ℚ) < 1 / 2 then ratFloor x
  else if (1 : ℚ) / 2 < x - (ratFloor x : ℚ) then ratFloor x + 1
  else if ratFloor x % 2 = 0 then ratFloor x else ratFloor x + 1

/-- Python `f"{x:.4f}"` on an exact rational: sign of the value, integral
digits, a point, exactly four fraction digits. -/
def fixed4 (x : ℚ) : List Char :=
  (if x < 0 then ['-'] else []) ++
    natRepr ((roundHalfEven (x * 10000)).natAbs / 10000) ++
    '.' :: padLeft 4 (natRepr ((roundHalfEven (x * 10000)).natAbs % 10000))

/-- Lines 165–168: a non-null funding cell renders as the value to four
decimal places followed by a percent sign; a null cell renders as the
placeholder. -/
def fmtFunding : Option ℚ → String
  | none => "-"
  | some x => String.mk (fixed4 x ++ ['%'])

/-- Least-significant-first chunks of at most three characters, with
fuel, so that terms reduce by kernel computation. -/
def chunksRevAux : ℕ → List Char → List (List Char)
  | 0, _ => []
  | _ + 1, [] => []
  | fuel + 1, c :: rest =>
      ((c :: rest).take 3) :: chunksRevAux fuel ((c :: rest).drop 3)

/-- Least-significant-first chunks of at most three characters. -/
def chunksRev (l : List Char) : List (List Char) := chunksRevAux l.length l

/-- Join character groups, separating consecutive groups by commas. -/
def joinComma : List (List Char) → List Char
  | [] => []
  | [g] => g
  | g :: gs => g ++ ',' :: joinComma gs

/-- The groups of a digit string, most significant first: thousands
grouping from the right. -/
def commaGroups (cs : List Char) : List (List Char) :=
  ((chunksRev cs.reverse).map List.reverse).reverse

/-- Python thousands grouping, `f"{n:,.0f}"`-style, of a digit string. -/
def commaFmt (cs : List Char) : List Char := joinComma (commaGroups cs)

/-- Lines 191–194: a non-null open-interest cell renders as a dollar
sign followed by the value rounded to zero decimal places with thousands
separators; a null cell renders as the placeholder. -/
def fmtOI : Option ℚ → String
  | none => "-"
  | some x =>
      String.mk ('$' :: ((if x < 0 then ['-'] else []) ++
        commaFmt (natRepr (roundHalfEven x).natAbs)))

/-! ## Definitions: parsing formatted strings (lines 171–183) -/

/-- Python `float()` restricted to the plain decimal strings the
formatters emit: digits, optionally one point and fraction digits. -/
def parseUnsigned (cs : List Char) : Option ℚ :=
  let ip := cs.takeWhile (fun c => !(c == '.'))
  let rest := cs.dropWhile (fun c => !(c == '.'))
  if rest = [] then (parseNatD ip).map (fun n => (n : ℚ))
  else
    match parseNatD ip, parseNatD rest.tail with
    | some i, some f => some ((i : ℚ) + (f : ℚ) / 10 ^ rest.tail.length)
    | _, _ => none

/-- Python `float()` on a possibly minus-signed decimal string. -/
def parseDecimal (cs : List Char) : Option ℚ :=
  if cs.head? = some '-' then (parseUnsigned cs.tail).map (fun q => -q)
  else parseUnsigned cs

/-- Python `val.strip('%')`: remove percent signs from both ends. -/
def stripPct (s : String) : List Char :=
  ((s.data.dropWhile (fun c => c == '%')).reverse.dropWhile
    (fun c => c == '%')).reverse

/-- The round-trip reading for open interest: drop dollar signs and
commas, keeping everything else. -/
def stripDollarCommas (s : String) : List Char :=
  s.data.filter (fun c => !(c == '$' || c == ','))

/-- Lines 171–183: the color classifier applied to a formatted funding
cell.  The placeholder gets no style; otherwise the numeric percentage
is parsed back out of the string and thresholded. -/
def color_funding (val : String) : String :=
  if val = "-" then "" else
    match parseDecimal (stripPct val) with
    | none => ""
    | some num =>
        if num < 0.005 then "color: green;"
        else if num > 0.01 then "color: red;"
        else "color: white;"

/-! ## Definitions: best contract per pair (lines 106–111) -/

/-- Volume ordering used by the line-107 sort inside one (token, market)
group: descending on present values, nulls last
(`ascending=False`, `na_position="last"`). -/
def volLeB : Option ℚ → Option ℚ → Bool
  | _, none => true
  | none, some _ => false
  | some x, some y => decide (y ≤ x)

/-- The line-107 lexicographic sort order: token and market ascending,
then volume as in `volLeB`. -/
def recLeB (a b : ContractRecord) : Bool :=
  if a.token = b.token then
    if a.market = b.market then volLeB a.volume_24h b.volume_24h
    else decide (a.market < b.market)
  else decide (a.token < b.token)

def recLe (a b : ContractRecord) : Prop := recLeB a b = true

instance recLe.decidable : DecidableRel recLe :=
  fun a b => instDecidableEqBool (recLeB a b) true

/-- Line 107: `sort_values(["token", "market", "volume_24h"],
ascending=[True, True, False])` (ties between full records are
implementation-defined in pandas and irrelevant here). -/
def sortRecords (rs : List ContractRecord) : List ContractRecord :=
  List.insertionSort recLe rs

/-- The sorted distinct (token, market) keys of the line-109 groupby. -/
def pairKeys (rs : List ContractRecord) : List (String × String) :=
  ((sortRecords rs).map (fun r => (r.token, r.market))).dedup

/-- One (token, market) group of the sorted frame. -/
def pairGroup (rs : List ContractRecord) (t m : String) :
    List ContractRecord :=
  (sortRecords rs).filter (fun r => decide (r.token = t ∧ r.market = m))

/-- First non-null value of a column within one group
(`GroupBy.first` semantics). -/
def firstSome (xs : List (Option ℚ)) : Option ℚ := (xs.filterMap id).head?

/-- The `groupby(["token", "market"]).first()` row of one group:
per column, the first non-null value in sorted group order (for the
never-null string columns this is the first row's value; the key columns
are the group key). -/
def bestOf (rs : List ContractRecord) (t m : String) : ContractRecord :=
  ⟨m,
    (((pairGroup rs t m).head?).map (fun r => r.symbol)).getD "",
    t,
    firstSome ((pairGroup rs t m).map (fun r => r.open_interest)),
    firstSome ((pairGroup rs t m).map (fun r => r.funding_rate)),
    firstSome ((pairGroup rs t m).map (fun r => r.volume_24h)),
    (((pairGroup rs t m).head?).map (fun r => r.fetched_at)).getD 0⟩

/-- Lines 106–111: one row per (token, market) pair. -/
def df_best (rs : List ContractRecord) : List ContractRecord :=
  (pairKeys rs).map (fun p => bestOf rs p.1 p.2)

/-- The per-pair maximum order on nullable volumes: a null loses to
everything, a present value loses to larger present values. -/
def optVolLe (a b : Option ℚ) : Prop :=
  match a, b with
  | none, _ => True
  | some _, none => False
  | some x, some y => x ≤ y

instance optVolLe.decidable (a b : Option ℚ) : Decidable (optVolLe a b) :=
  match a, b with
  | none, _ => isTrue trivial
  | some _, none => isFalse (fun h => h)
  | some x, some y => inferInstanceAs (Decidable (x ≤ y))

/-! ## Definitions: pivots, token ranking, tables (lines 138–194) -/

/-- Ascending string sort (pandas sorts group keys and column labels). -/
def sortStrings (l : List String) : List String :=
  List.insertionSort (fun a b : String => a ≤ b) l

/-- Row labels of `pivot_table(index="token", columns="market",
values=val, aggfunc="first")`: with the default `dropna=True`, (token,
market) keys whose value is null are dropped before unstacking, so a
token survives iff some pair of it has a non-null value. -/
def pivotRows (rs : List ContractRecord)
    (val : ContractRecord → Option ℚ) : List String :=
  sortStrings (((df_best rs).filterMap
    (fun r => if (val r).isSome then some r.token else none)).dedup)

/-- Column labels of the pivot (surviving markets, sorted). -/
def pivotCols (rs : List ContractRecord)
    (val : ContractRecord → Option ℚ) : List String :=
  sortStrings (((df_best rs).filterMap
    (fun r => if (val r).isSome then some r.market else none)).dedup)

/-- A pivot cell: the value of the pair's best row when the pair is
present, null otherwise. -/
def pivotCell (rs : List ContractRecord) (val : ContractRecord → Option ℚ)
    (t m : String) : Option ℚ :=
  ((df_best rs).find? (fun r => decide (r.token = t ∧ r.market = m))).bind val

/-- Lines 154–156: per-token sum of best-per-pair `volume_24h`, nulls
summed as zero (pandas `sum` skips NaN). -/
def tokenSum (rs : List ContractRecord) (t : String) : ℚ :=
  (((df_best rs).filter (fun r => r.token == t)).map
    (fun r => r.volume_24h.getD 0)).sum

/-- The distinct tokens of `df_best` (the groupby index). -/
def tokenList (rs : List ContractRecord) : List String :=
  ((df_best rs).map ContractRecord.token).dedup

/-- Lines 154–160: tokens sorted by summed volume descending, first
hundred kept (`head(100).index`). -/
def top_tokens (rs : List ContractRecord) : List String :=
  (List.insertionSort (fun a b => tokenSum rs b ≤ tokenSum rs a)
    (tokenList rs)).take 100

/-- A finished display table: ordered row labels, ordered column labels,
and the formatted cell contents. -/
structure FormattedTable where
  rows : List String
  cols : List String
  cell : String → String → String

/-- Lines 138–168: the funding-rate table, restricted to the top-100
tokens and formatted. -/
def funding_table (rs : List ContractRecord) : FormattedTable :=
  ⟨(pivotRows rs (fun r => r.funding_rate)).filter
      (fun t => decide (t ∈ top_tokens rs)),
    pivotCols rs (fun r => r.funding_rate),
    fun t m => fmtFunding (pivotCell rs (fun r => r.funding_rate) t m)⟩

/-- Lines 146–162 and 191–194: the open-interest table, restricted to
the top-100 tokens and formatted. -/
def oi_table (rs : List ContractRecord) : FormattedTable :=
  ⟨(pivotRows rs (fun r => r.open_interest)).filter
      (fun t => decide (t ∈ top_tokens rs)),
    pivotCols rs (fun r => r.open_interest),
    fun t m => fmtOI (pivotCell rs (fun r => r.open_interest) t m)⟩

/-! ## Definitions: concrete example inputs -/

/-- Example records: two Bybit BTC contracts, the first with the larger
volume (the spec §8 scenario values). -/
def exR1 : ContractRecord :=
  ⟨"Bybit (Futures)", "BTCUSD", "BTC", some 1000, some 1, some 100, 0⟩

def exR2 : ContractRecord :=
  ⟨"Bybit (Futures)", "BTCUSDT", "BTC", some 2000, some 2, some 50, 0⟩

def exRs : List ContractRecord := [exR1, exR2]

/-- An upstream item whose market is not an allow-listed name. -/
def exBad : RawItem :=
  ⟨some "Unknown Exchange", "BTCPERP", "BTC", some 9999, some 1, some 999⟩

/-- An upstream item kept by the filter. -/
def exGood : RawItem :=
  ⟨some "Bybit (Futures)", "BTCUSD", "BTC", some 1000, some 1, some 100⟩

/-- A single record whose funding rate is null but whose volume makes
its token the unique top token. -/
def exC2n : List ContractRecord :=
  [⟨"Bybit (Futures)", "BTCUSD", "BTC", some 1000, none, some 5, 0⟩]

/-- A single record with all values present. -/
def exC2 : List ContractRecord :=
  [⟨"Bybit (Futures)", "BTCUSD", "BTC", some 1000, some 1, some 100, 0⟩]

/-! ## Theorems: cache behavior, claims C4, C5, C9, C10 -/

/-- C4 (amended): with a fresh, deserializable artifact carrying a
timestamp, the cached data is returned unchanged and no upstream call is
made; a missing artifact or an elapsed time of at least `CACHE_TTL`
(14400 s) triggers a fetch that overwrites the artifact and returns the
fresh data; but a corrupt artifact does not fall through to the Fetcher:
the deserialization error escapes with no fetch. -/
theorem c4_cache_ttl_amended (now t : ℚ) (upstream : List RawItem)
    (d : List ContractRecord) (dump : DumpOutcome) :
    (now - t < CACHE_TTL →
      get_data now upstream dump (some (Artifact.snapshot d (some t))) =
        ⟨Except.ok d, some (Artifact.snapshot d (some t)), false⟩) ∧
    (CACHE_TTL ≤ now - t →
      get_data now upstream DumpOutcome.ok (some (Artifact.snapshot d (some t))) =
        ⟨Except.ok (fetch_data now upstream),
          some (Artifact.snapshot (fetch_data now upstream) (some now)), true⟩) ∧
    (get_data now upstream DumpOutcome.ok none =
        ⟨Except.ok (fetch_data now upstream),
          some (Artifact.snapshot (fetch_data now upstream) (some now)), true⟩) ∧
    (get_data now upstream dump (some Artifact.corrupt) =
        ⟨Except.error CacheError.loadError, some Artifact.corrupt, false⟩) := by
  refine ⟨fun h => ?_, fun h => ?_, rfl, rfl⟩
  · simp only [get_data]
    rw [if_pos h]
  · simp only [get_data]
    rw [if_neg (not_lt.mpr h)]
    rfl

/-- Witness for `c4_cache_ttl_amended` at concrete inputs: a 0-second-old
artifact is served from cache, a 20000-second-old one is refetched. -/
theorem c4_cache_ttl_amended_witness :
    get_data 0 [] DumpOutcome.ok (some (Artifact.snapshot [] (some 0))) =
      ⟨Except.ok [], some (Artifact.snapshot [] (some 0)), false⟩ ∧
    get_data 20000 [] DumpOutcome.ok (some (Artifact.snapshot [] (some 0))) =
      ⟨Except.ok (fetch_data 20000 []),
        some (Artifact.snapshot (fetch_data 20000 []) (some 20000)), true⟩ :=
  ⟨(c4_cache_ttl_amended 0 0 [] [] DumpOutcome.ok).1 (by norm_num [CACHE_TTL]),
   (c4_cache_ttl_amended 20000 0 [] [] DumpOutcome.ok).2.1
      (by norm_num [CACHE_TTL])⟩

/-- C4 counterexample: on a corrupt artifact the claim asserts the
Fetcher is called and fresh data is returned; in the code `joblib.load`
raises and the exception escapes `get_data` before any fetch. -/
theorem c4_cache_ttl_counterexample :
    (get_data 0 [] DumpOutcome.ok (some Artifact.corrupt)).fetchCalled = false ∧
    (get_data 0 [] DumpOutcome.ok (some Artifact.corrupt)).result =
      Except.error CacheError.loadError :=
  ⟨rfl, rfl⟩

/-- C5 (amended): a cache artifact that exists but fails to deserialize
is not treated as a cache miss: the `joblib.load` exception propagates to
the caller of `get_data` (there is no handler), no fetch happens, and the
file is left as it was. -/
theorem c5_corrupt_cache_propagates (now : ℚ) (upstream : List RawItem)
    (dump : DumpOutcome) :
    get_data now upstream dump (some Artifact.corrupt) =
      ⟨Except.error CacheError.loadError, some Artifact.corrupt, false⟩ :=
  rfl

/-- C5 counterexample: at a concrete corrupt-cache state the call ends in
the deserialization error instead of falling through to a fresh fetch. -/
theorem c5_corrupt_cache_counterexample :
    (get_data 1 [] DumpOutcome.fail (some Artifact.corrupt)).result =
      Except.error CacheError.loadError ∧
    (get_data 1 [] DumpOutcome.fail (some Artifact.corrupt)).fetchCalled =
      false :=
  ⟨rfl, rfl⟩

/-- C9 (amended): on the fresh-fetch path a failure of `joblib.dump`
is not ignored: the exception propagates out of `get_data` and the
freshly fetched data is not returned, even though `fetch_data` ran. -/
theorem c9_dump_failure_propagates (now : ℚ) (upstream : List RawItem) :
    get_data now upstream DumpOutcome.fail none =
      ⟨Except.error CacheError.dumpError, none, true⟩ :=
  rfl

/-- C9 counterexample: with no cache file and a failing dump, the result
is the dump error, not the freshly fetched data. -/
theorem c9_dump_failure_counterexample :
    (get_data 2 [] DumpOutcome.fail none).result =
      Except.error CacheError.dumpError ∧
    (get_data 2 [] DumpOutcome.fail none).result ≠
      Except.ok (fetch_data 2 []) := by
  refine ⟨rfl, fun h => ?_⟩
  simp [get_data, get_data_refresh] at h

/-- C10 (confirmed): an artifact that deserializes but carries no
`fetched_at` value is treated as a cache miss: the Fetcher runs, the new
snapshot overwrites the artifact, and the fresh data is returned (the
persist step itself succeeding). -/
theorem c10_missing_timestamp_is_miss (now : ℚ) (upstream : List RawItem)
    (d : List ContractRecord) :
    get_data now upstream DumpOutcome.ok (some (Artifact.snapshot d none)) =
      ⟨Except.ok (fetch_data now upstream),
        some (Artifact.snapshot (fetch_data now upstream) (some now)), true⟩ :=
  rfl

/-! ## Theorems: digit strings and formatting -/

theorem natDigitsAux_eq (fuel n : ℕ) (h : n ≤ fuel) :
    natDigitsAux fuel n = Nat.digits 10 n := by
  induction fuel generalizing n with
  | zero =>
    interval_cases n
    simp [natDigitsAux]
  | succ f ih =>
    match n with
    | 0 => simp [natDigitsAux]
    | n + 1 =>
      have hdiv : (n + 1) / 10 ≤ f := by omega
      rw [natDigitsAux, ih ((n + 1) / 10) hdiv,
        Nat.digits_def' (b := 10) (by norm_num) (Nat.succ_pos n)]

theorem natDigits_eq (n : ℕ) : natDigits n = Nat.digits 10 n :=
  natDigitsAux_eq n n le_rfl

theorem charVal_digitChar (d : ℕ) (h : d < 10) :
    charVal (digitChar d) = d := by
  interval_cases d <;> rfl

theorem isDig_digitChar (d : ℕ) (h : d < 10) : isDig (digitChar d) = true := by
  interval_cases d <;> rfl

theorem natRepr_ne_nil (n : ℕ) : natRepr n ≠ [] := by
  unfold natRepr
  split
  · simp
  · next h =>
    simp only [ne_eq, List.reverse_eq_nil_iff, List.map_eq_nil_iff]
    rw [natDigits_eq]
    exact Nat.digits_ne_nil_iff_ne_zero.mpr h

theorem natRepr_all_isDig (n : ℕ) : ∀ c ∈ natRepr n, isDig c = true := by
  intro c hc
  unfold natRepr at hc
  split at hc
  · simp only [List.mem_singleton] at hc
    subst hc
    rfl
  · rw [List.mem_reverse, List.mem_map] at hc
    obtain ⟨d, hd, rfl⟩ := hc
    rw [natDigits_eq] at hd
    exact isDig_digitChar d (Nat.digits_lt_base (by norm_num) hd)

theorem parseNatD_natRepr (n : ℕ) : parseNatD (natRepr n) = some n := by
  rw [parseNatD, if_pos ⟨natRepr_ne_nil n, List.all_eq_true.mpr (natRepr_all_isDig n)⟩]
  congr 1
  by_cases h : n = 0
  · subst h
    rfl
  · rw [natRepr, if_neg h, List.reverse_reverse, List.map_map]
    have : (natDigits n).map (charVal ∘ digitChar) = (natDigits n).map id := by
      apply List.map_congr_left
      intro d hd
      rw [natDigits_eq] at hd
      exact charVal_digitChar d (Nat.digits_lt_base (by norm_num) hd)
    rw [this, List.map_id, natDigits_eq, Nat.ofDigits_digits]

theorem natRepr_length_le (n k : ℕ) (hk : 0 < k) (h : n < 10 ^ k) :
    (natRepr n).length ≤ k := by
  by_cases h0 : n = 0
  · subst h0
    simpa [natRepr] using hk
  · rw [natRepr, if_neg h0, List.length_reverse, List.length_map, natDigits_eq,
      Nat.digits_len 10 n (by norm_num) h0]
    have := (Nat.lt_pow_iff_log_lt (by norm_num) h0).mp h
    omega

theorem ofDigits_replicate_zero (k : ℕ) :
    Nat.ofDigits 10 (List.replicate k 0) = 0 := by
  induction k with
  | zero => rfl
  | succ m ih => simp [List.replicate_succ, Nat.ofDigits_cons, ih]

theorem padLeft_length (k : ℕ) (cs : List Char) (h : cs.length ≤ k) :
    (padLeft k cs).length = k := by
  simp [padLeft]
  omega

theorem parseNatD_padLeft (k : ℕ) (cs : List Char) (h1 : cs ≠ [])
    (h2 : cs.all isDig = true) : parseNatD (padLeft k cs) = parseNatD cs := by
  have hall : (padLeft k cs).all isDig = true := by
    rw [List.all_eq_true] at h2 ⊢
    intro c hc
    rw [padLeft, List.mem_append] at hc
    rcases hc with hc | hc
    · rw [List.eq_of_mem_replicate hc]
      rfl
    · exact h2 c hc
  have hne : padLeft k cs ≠ [] := by
    simp [padLeft, h1]
  rw [parseNatD, parseNatD, if_pos ⟨hne, hall⟩, if_pos ⟨h1, h2⟩]
  congr 1
  rw [padLeft, List.reverse_append, List.map_append, Nat.ofDigits_append]
  have : (List.replicate (k - cs.length) '0').reverse.map charVal =
      List.replicate (k - cs.length) 0 := by
    rw [List.reverse_replicate, List.map_replicate]
    rfl
  rw [this, ofDigits_replicate_zero]
  ring

theorem ratFloor_eq (x : ℚ) : ratFloor x = ⌊x⌋ := Rat.floor_def.symm

theorem roundHalfEven_dist (x : ℚ) : |(roundHalfEven x : ℚ) - x| ≤ 1 / 2 := by
  have h1 : ((ratFloor x : ℤ) : ℚ) ≤ x := by
    rw [ratFloor_eq]
    exact Int.floor_le x
  have h2 : x < (ratFloor x : ℚ) + 1 := by
    rw [ratFloor_eq]
    exact Int.lt_floor_add_one x
  unfold roundHalfEven
  split
  · next h => rw [abs_le]; constructor <;> linarith
  · next h =>
    split
    · next h2' => rw [abs_le]; push_cast; constructor <;> linarith
    · next h2' =>
      split <;> (rw [abs_le]; push_cast; constructor <;> linarith)

theorem roundHalfEven_nonneg (x : ℚ) (hx : 0 ≤ x) : 0 ≤ roundHalfEven x := by
  have h0 : 0 ≤ ratFloor x := by
    rw [ratFloor_eq]
    exact Int.floor_nonneg.mpr hx
  unfold roundHalfEven
  split
  · exact h0
  · split
    · omega
    · split <;> omega

theorem roundHalfEven_nonpos (x : ℚ) (hx : x < 0) : roundHalfEven x ≤ 0 := by
  have h0 : ratFloor x ≤ -1 := by
    rw [ratFloor_eq]
    have : ⌊x⌋ < 0 := by
      rw [Int.floor_lt]
      push_cast
      linarith
    omega
  unfold roundHalfEven
  split
  · omega
  · split
    · omega
    · split <;> omega

theorem natRepr_mem_digitChar (n : ℕ) (c : Char) (hc : c ∈ natRepr n) :
    ∃ d, d < 10 ∧ c = digitChar d := by
  unfold natRepr at hc
  split at hc
  · simp only [List.mem_singleton] at hc
    exact ⟨0, by norm_num, hc⟩
  · rw [List.mem_reverse, List.mem_map] at hc
    obtain ⟨d, hd, rfl⟩ := hc
    rw [natDigits_eq] at hd
    exact ⟨d, Nat.digits_lt_base (by norm_num) hd, rfl⟩

theorem digitChar_pred (d : ℕ) (h : d < 10) :
    (digitChar d == '.') = false ∧ (digitChar d == '%') = false ∧
    (digitChar d == ',') = false ∧ (digitChar d == '$') = false ∧
    digitChar d ≠ '-' := by
  interval_cases d <;> exact ⟨rfl, rfl, rfl, rfl, by decide⟩

theorem natRepr_pred (n : ℕ) (c : Char) (hc : c ∈ natRepr n) :
    (c == '.') = false ∧ (c == '%') = false ∧
    (c == ',') = false ∧ (c == '$') = false ∧ c ≠ '-' := by
  obtain ⟨d, hd, rfl⟩ := natRepr_mem_digitChar n c hc
  exact digitChar_pred d hd

theorem takeWhile_append_all (p : Char → Bool) (l1 l2 : List Char)
    (h : ∀ c ∈ l1, p c = true) :
    (l1 ++ l2).takeWhile p = l1 ++ l2.takeWhile p := by
  induction l1 with
  | nil => simp
  | cons a t ih =>
    have ha := h a (List.mem_cons_self a t)
    simp only [List.cons_append, List.takeWhile_cons, ha, if_true]
    rw [ih fun c hc => h c (List.mem_cons_of_mem a hc)]

theorem dropWhile_append_all (p : Char → Bool) (l1 l2 : List Char)
    (h : ∀ c ∈ l1, p c = true) :
    (l1 ++ l2).dropWhile p = l2.dropWhile p := by
  induction l1 with
  | nil => simp
  | cons a t ih =>
    have ha := h a (List.mem_cons_self a t)
    simp only [List.cons_append, List.dropWhile_cons, ha, if_true]
    exact ih fun c hc => h c (List.mem_cons_of_mem a hc)

theorem parseUnsigned_pair (a b : ℕ) (hb : b < 10000) :
    parseUnsigned (natRepr a ++ '.' :: padLeft 4 (natRepr b)) =
      some ((a : ℚ) + (b : ℚ) / 10 ^ 4) := by
  have hdot : (('.' : Char) == '.') = true := by decide
  have hp : ∀ c ∈ natRepr a, (fun c => !(c == '.')) c = true := by
    intro c hc
    simp [(natRepr_pred a c hc).1]
  have hip : (natRepr a ++ '.' :: padLeft 4 (natRepr b)).takeWhile
      (fun c => !(c == '.')) = natRepr a := by
    rw [takeWhile_append_all _ _ _ hp, List.takeWhile_cons, hdot, Bool.not_true,
      if_neg Bool.false_ne_true, List.append_nil]
  have hrest : (natRepr a ++ '.' :: padLeft 4 (natRepr b)).dropWhile
      (fun c => !(c == '.')) = '.' :: padLeft 4 (natRepr b) := by
    rw [dropWhile_append_all _ _ _ hp, List.dropWhile_cons, hdot, Bool.not_true,
      if_neg Bool.false_ne_true]
  have hlen : (padLeft 4 (natRepr b)).length = 4 :=
    padLeft_length 4 _ (natRepr_length_le b 4 (by norm_num) hb)
  have hpad : parseNatD (padLeft 4 (natRepr b)) = some b := by
    rw [parseNatD_padLeft 4 _ (natRepr_ne_nil b)
      (List.all_eq_true.mpr (natRepr_all_isDig b)), parseNatD_natRepr]
  rw [parseUnsigned]
  simp only [hip, hrest, List.tail_cons, List.cons_ne_nil, if_false,
    parseNatD_natRepr, hpad, hlen]

theorem parseDecimal_fixed4 (x : ℚ) :
    parseDecimal (fixed4 x) = some ((roundHalfEven (x * 10000) : ℚ) / 10000) := by
  have hdm : 10000 * ((roundHalfEven (x * 10000)).natAbs / 10000) +
      (roundHalfEven (x * 10000)).natAbs % 10000 =
      (roundHalfEven (x * 10000)).natAbs := Nat.div_add_mod _ _
  have hmod : (roundHalfEven (x * 10000)).natAbs % 10000 < 10000 :=
    Nat.mod_lt _ (by norm_num)
  have hsum : (((roundHalfEven (x * 10000)).natAbs / 10000 : ℕ) : ℚ) +
      (((roundHalfEven (x * 10000)).natAbs % 10000 : ℕ) : ℚ) / 10 ^ 4 =
      (((roundHalfEven (x * 10000)).natAbs : ℕ) : ℚ) / 10000 := by
    have h4 : (10 : ℚ) ^ 4 = 10000 := by norm_num
    rw [h4]
    conv_rhs => rw [← hdm]
    push_cast
    rw [add_div, mul_div_cancel_left₀ _ (by norm_num : (10000 : ℚ) ≠ 0)]
  by_cases hx : x < 0
  · have hn : roundHalfEven (x * 10000) ≤ 0 :=
      roundHalfEven_nonpos _ (mul_neg_of_neg_of_pos hx (by norm_num))
    have habs : (((roundHalfEven (x * 10000)).natAbs : ℕ) : ℚ) =
        -((roundHalfEven (x * 10000) : ℤ) : ℚ) := by
      rw [Int.cast_natAbs, abs_of_nonpos hn]
      push_cast
      ring
    rw [fixed4, if_pos hx]
    show parseDecimal ('-' :: (natRepr _ ++ '.' :: padLeft 4 (natRepr _))) = _
    rw [parseDecimal]
    simp only [List.head?_cons, List.tail_cons, if_true]
    rw [parseUnsigned_pair _ _ hmod, Option.map_some']
    congr 1
    rw [hsum, habs]
    ring
  · have hn : 0 ≤ roundHalfEven (x * 10000) :=
      roundHalfEven_nonneg _ (mul_nonneg (not_lt.mp hx) (by norm_num))
    have habs : (((roundHalfEven (x * 10000)).natAbs : ℕ) : ℚ) =
        ((roundHalfEven (x * 10000) : ℤ) : ℚ) := by
      rw [Int.cast_natAbs, abs_of_nonneg hn]
    rw [fixed4, if_neg hx, List.nil_append]
    rcases List.exists_cons_of_ne_nil
      (natRepr_ne_nil ((roundHalfEven (x * 10000)).natAbs / 10000)) with hct
    obtain ⟨c, t, hct⟩ := hct
    have hcmem : c ∈ natRepr ((roundHalfEven (x * 10000)).natAbs / 10000) := by
      rw [hct]
      exact List.mem_cons_self c t
    have hcne : ¬ ((natRepr ((roundHalfEven (x * 10000)).natAbs / 10000) ++
        '.' :: padLeft 4 (natRepr ((roundHalfEven (x * 10000)).natAbs % 10000))).head? =
        some '-') := by
      rw [hct]
      simp only [List.cons_append, List.head?_cons, Option.some_inj]
      exact (natRepr_pred _ c hcmem).2.2.2.2
  
    rw [parseDecimal, if_neg hcne, parseUnsigned_pair _ _ hmod]
    rw [hsum, habs]

theorem chunksRevAux_nil (fuel : ℕ) : chunksRevAux fuel [] = [] := by
  cases fuel <;> rfl

theorem chunksRevAux_flatten (fuel : ℕ) (l : List Char) (h : l.length ≤ fuel) :
    (chunksRevAux fuel l).flatten = l := by
  induction fuel generalizing l with
  | zero =>
    have : l = [] := List.eq_nil_of_length_eq_zero (Nat.le_zero.mp h)
    subst this
    rfl
  | succ f ih =>
    cases l with
    | nil => rfl
    | cons c rest =>
      rw [chunksRevAux, List.flatten_cons,
        ih _ (by simp only [List.length_drop, List.length_cons] at h ⊢; omega)]
      exact List.take_append_drop 3 (c :: rest)

theorem chunksRev_flatten (l : List Char) : (chunksRev l).flatten = l :=
  chunksRevAux_flatten l.length l le_rfl

theorem chunksRevAux_spec (fuel : ℕ) (l : List Char) (hf : l.length ≤ fuel)
    (h : l ≠ []) :
    ∃ init last, chunksRevAux fuel l = init ++ [last] ∧
      (∀ g ∈ init, g.length = 3) ∧ 1 ≤ last.length ∧ last.length ≤ 3 := by
  induction fuel generalizing l with
  | zero =>
    have : l = [] := List.eq_nil_of_length_eq_zero (Nat.le_zero.mp hf)
    exact absurd this h
  | succ f ih =>
    cases l with
    | nil => exact absurd rfl h
    | cons c rest =>
      rw [chunksRevAux]
      by_cases hd : (c :: rest).drop 3 = []
      · rw [hd, chunksRevAux_nil]
        refine ⟨[], (c :: rest).take 3, rfl, by simp, ?_, ?_⟩
        · simp only [List.length_take, List.length_cons]
          omega
        · simp only [List.length_take, List.length_cons]
          omega
      · have hlen3 : 3 < rest.length + 1 := by
          by_contra hh
          exact hd (List.drop_eq_nil_iff.mpr (by simpa using hh))
        obtain ⟨init, last, heq, h3, h1, h32⟩ :=
          ih ((c :: rest).drop 3)
            (by simp only [List.length_drop, List.length_cons] at hf ⊢; omega) hd
        refine ⟨(c :: rest).take 3 :: init, last, by rw [heq]; rfl, ?_, h1, h32⟩
        intro g hg
        rcases List.mem_cons.mp hg with hg | hg
        · subst hg
          simp only [List.length_take, List.length_cons]
          omega
        · exact h3 g hg

theorem commaGroups_flatten (cs : List Char) : (commaGroups cs).flatten = cs :=
  calc (commaGroups cs).flatten
      = ((chunksRev cs.reverse).map List.reverse).reverse.flatten := rfl
    _ = (chunksRev cs.reverse).flatten.reverse := (List.reverse_flatten _).symm
    _ = cs.reverse.reverse := by rw [chunksRev_flatten]
    _ = cs := List.reverse_reverse cs

theorem commaGroups_mem (cs : List Char) (g : List Char)
    (hg : g ∈ commaGroups cs) (c : Char) (hc : c ∈ g) : c ∈ cs := by
  rw [← commaGroups_flatten cs]
  exact List.mem_flatten.mpr ⟨g, hg, hc⟩

theorem commaGroups_spec (cs : List Char) (h : cs ≠ []) :
    ∃ g0 gr, commaGroups cs = g0 :: gr ∧ 1 ≤ g0.length ∧ g0.length ≤ 3 ∧
      ∀ g ∈ gr, g.length = 3 := by
  obtain ⟨init, last, heq, h3, h1, h32⟩ :=
    chunksRevAux_spec cs.reverse.length cs.reverse le_rfl (by simpa using h)
  refine ⟨last.reverse, (init.map List.reverse).reverse, ?_,
    by simpa using h1, by simpa using h32, ?_⟩
  · rw [commaGroups, show chunksRev cs.reverse = init ++ [last] from heq,
      List.map_append, List.reverse_append]
    simp
  · intro g hg
    rw [List.mem_reverse, List.mem_map] at hg
    obtain ⟨g1, hg1, rfl⟩ := hg
    simp [h3 g1 hg1]

theorem filter_joinComma (p : Char → Bool) (gs : List (List Char))
    (hcomma : p ',' = false) (h : ∀ g ∈ gs, ∀ c ∈ g, p c = true) :
    (joinComma gs).filter p = gs.flatten := by
  induction gs with
  | nil => rfl
  | cons g gr ih =>
    cases gr with
    | nil =>
      show (joinComma [g]).filter p = [g].flatten
      have h1 : joinComma [g] = g := rfl
      rw [h1, List.filter_eq_self.mpr (h g (List.mem_singleton.mpr rfl))]
      simp
    | cons g2 gr2 =>
      have h1 : joinComma (g :: g2 :: gr2) = g ++ ',' :: joinComma (g2 :: gr2) :=
        rfl
      rw [h1, List.filter_append, List.filter_cons, hcomma]
      rw [List.filter_eq_self.mpr (h g (List.mem_cons_self g _))]
      rw [ih fun g' hg' => h g' (List.mem_cons_of_mem g hg')]
      simp

/-! ## Theorems: the sort order -/

theorem volLeB_none (a : Option ℚ) : volLeB a none = true := by
  cases a <;> rfl

theorem volLeB_total (a b : Option ℚ) :
    volLeB a b = true ∨ volLeB b a = true := by
  cases a with
  | none =>
    cases b with
    | none => exact Or.inl rfl
    | some y => exact Or.inr rfl
  | some x =>
    cases b with
    | none => exact Or.inl rfl
    | some y =>
      rcases le_total y x with h | h
      · exact Or.inl (decide_eq_true h)
      · exact Or.inr (decide_eq_true h)

theorem volLeB_trans (a b c : Option ℚ) (h1 : volLeB a b = true)
    (h2 : volLeB b c = true) : volLeB a c = true := by
  cases c with
  | none => exact volLeB_none a
  | some z =>
    cases b with
    | none => exact absurd h2 (by simp [volLeB])
    | some y =>
      cases a with
      | none => exact absurd h1 (by simp [volLeB])
      | some x =>
        rw [volLeB, decide_eq_true_iff] at h1 h2 ⊢
        exact le_trans h2 h1

theorem recLe_total (a b : ContractRecord) : recLe a b ∨ recLe b a := by
  rw [recLe, recLe, recLeB, recLeB]
  by_cases h1 : a.token = b.token
  · rw [if_pos h1, if_pos h1.symm]
    by_cases h2 : a.market = b.market
    · rw [if_pos h2, if_pos h2.symm]
      exact volLeB_total _ _
    · rw [if_neg h2, if_neg (fun hh => h2 hh.symm)]
      rcases lt_or_gt_of_ne h2 with h | h
      · exact Or.inl (decide_eq_true h)
      · exact Or.inr (decide_eq_true h)
  · rw [if_neg h1, if_neg (fun hh => h1 hh.symm)]
    rcases lt_or_gt_of_ne h1 with h | h
    · exact Or.inl (decide_eq_true h)
    · exact Or.inr (decide_eq_true h)

theorem recLe_trans (a b c : ContractRecord) (h1 : recLe a b)
    (h2 : recLe b c) : recLe a c := by
  rw [recLe, recLeB] at h1 h2 ⊢
  by_cases hab : a.token = b.token
  · by_cases hbc : b.token = c.token
    · rw [if_pos hab] at h1
      rw [if_pos hbc] at h2
      rw [if_pos (hab.trans hbc)]
      by_cases mab : a.market = b.market
      · by_cases mbc : b.market = c.market
        · rw [if_pos mab] at h1
          rw [if_pos mbc] at h2
          rw [if_pos (mab.trans mbc)]
          exact volLeB_trans _ _ _ h1 h2
        · rw [if_pos mab] at h1
          rw [if_neg mbc] at h2
          rw [if_neg (fun hh => mbc (mab.symm.trans hh))]
          rw [decide_eq_true_iff] at h2 ⊢
          exact mab ▸ h2
      · by_cases mbc : b.market = c.market
        · rw [if_neg mab] at h1
          rw [if_neg (fun hh => mab (hh.trans mbc.symm))]
          rw [decide_eq_true_iff] at h1 ⊢
          exact mbc ▸ h1
        · rw [if_neg mab] at h1
          rw [if_neg mbc] at h2
          rw [decide_eq_true_iff] at h1 h2
          by_cases mac : a.market = c.market
          · exact absurd (mac ▸ h2) (not_lt.mpr (le_of_lt h1))
          · rw [if_neg mac, decide_eq_true_iff]
            exact lt_trans h1 h2
    · rw [if_neg hbc] at h2
      rw [if_neg (fun hh => hbc (hab.symm.trans hh))]
      rw [decide_eq_true_iff] at h2 ⊢
      exact hab ▸ h2
  · by_cases hbc : b.token = c.token
    · rw [if_neg hab] at h1
      rw [if_neg (fun hh => hab (hh.trans hbc.symm))]
      rw [decide_eq_true_iff] at h1 ⊢
      exact hbc ▸ h1
    · rw [if_neg hab] at h1
      rw [if_neg hbc] at h2
      rw [decide_eq_true_iff] at h1 h2
      by_cases hac : a.token = c.token
      · exact absurd (hac ▸ h2) (not_lt.mpr (le_of_lt h1))
      · rw [if_neg hac, decide_eq_true_iff]
        exact lt_trans h1 h2

/-! ## Theorems: claim C1, best-per-pair reduction -/

theorem mem_sortRecords (rs : List ContractRecord) (r : ContractRecord) :
    r ∈ sortRecords rs ↔ r ∈ rs :=
  (List.perm_insertionSort recLe rs).mem_iff

theorem sorted_sortRecords (rs : List ContractRecord) :
    List.Sorted recLe (sortRecords rs) := by
  haveI : IsTotal ContractRecord recLe := ⟨recLe_total⟩
  haveI : IsTrans ContractRecord recLe := ⟨recLe_trans⟩
  exact List.sorted_insertionSort recLe rs

theorem mem_pairGroup (rs : List ContractRecord) (t m : String)
    (r : ContractRecord) :
    r ∈ pairGroup rs t m ↔ r ∈ rs ∧ r.token = t ∧ r.market = m := by
  constructor
  · intro h
    have hh := List.mem_filter.mp h
    exact ⟨(mem_sortRecords rs r).mp hh.1, of_decide_eq_true hh.2⟩
  · intro h
    exact List.mem_filter.mpr
      ⟨(mem_sortRecords rs r).mpr h.1, decide_eq_true h.2⟩

theorem sorted_pairGroup (rs : List ContractRecord) (t m : String) :
    List.Sorted recLe (pairGroup rs t m) :=
  List.Pairwise.sublist (List.filter_sublist _) (sorted_sortRecords rs)

theorem group_max (l : List ContractRecord) (t m : String)
    (hs : List.Sorted recLe l) (hall : ∀ r ∈ l, r.token = t ∧ r.market = m) :
    (∀ r ∈ l, optVolLe r.volume_24h
      (firstSome (l.map (fun r => r.volume_24h)))) ∧
    (firstSome (l.map (fun r => r.volume_24h)) = none ∨
      ∃ r ∈ l, r.volume_24h = firstSome (l.map (fun r => r.volume_24h))) := by
  cases l with
  | nil => exact ⟨fun r hr => absurd hr (List.not_mem_nil r), Or.inl rfl⟩
  | cons a rest =>
    rw [List.sorted_cons] at hs
    obtain ⟨ha, _⟩ := hs
    have hkey : ∀ x ∈ rest, volLeB a.volume_24h x.volume_24h = true := by
      intro x hx
      have h1 := ha x hx
      have hat := hall a (List.mem_cons_self a rest)
      have hxt := hall x (List.mem_cons_of_mem a hx)
      rw [recLe, recLeB, if_pos (hat.1.trans hxt.1.symm),
        if_pos (hat.2.trans hxt.2.symm)] at h1
      exact h1
    cases hv : a.volume_24h with
    | some v =>
      have hfs : firstSome ((a :: rest).map (fun r => r.volume_24h)) =
          some v := by
        simp [firstSome, hv]
      rw [hfs]
      constructor
      · intro r hr
        rcases List.mem_cons.mp hr with rfl | hr
        · rw [hv]
          exact le_refl v
        · have hvb := hkey r hr
          cases hrv : r.volume_24h with
          | none => trivial
          | some w =>
            rw [hv, hrv, volLeB, decide_eq_true_iff] at hvb
            exact hvb
      · exact Or.inr ⟨a, List.mem_cons_self a rest, hv⟩
    | none =>
      have hnone : ∀ x ∈ rest, x.volume_24h = none := by
        intro x hx
        have hvb := hkey x hx
        cases hxv : x.volume_24h with
        | none => rfl
        | some w =>
          rw [hv, hxv] at hvb
          exact absurd hvb (by simp [volLeB])
      have hfs : firstSome ((a :: rest).map (fun r => r.volume_24h)) =
          none := by
        rw [firstSome]
        have hnil : (((a :: rest).map (fun r => r.volume_24h)).filterMap id) =
            [] := by
          rw [List.filterMap_eq_nil_iff]
          intro o ho
          rw [List.mem_map] at ho
          obtain ⟨r, hr, rfl⟩ := ho
          rcases List.mem_cons.mp hr with rfl | hr
          · exact hv
          · exact hnone r hr
        rw [hnil]
        rfl
      rw [hfs]
      refine ⟨?_, Or.inl rfl⟩
      intro r hr
      rcases List.mem_cons.mp hr with rfl | hr
      · rw [hv]
        trivial
      · rw [hnone r hr]
        trivial

theorem filter_eq_singleton_of_nodup {α : Type} [DecidableEq α]
    (l : List α) (a : α) (hn : l.Nodup) (ha : a ∈ l) :
    l.filter (fun x => decide (x = a)) = [a] := by
  induction l with
  | nil => cases ha
  | cons b t ih =>
    rw [List.filter_cons]
    rcases List.mem_cons.mp ha with heq | ha2
    · subst heq
      rw [decide_eq_true rfl, if_pos rfl]
      have hnb : a ∉ t := (List.nodup_cons.mp hn).1
      have hft : t.filter (fun x => decide (x = a)) = [] := by
        rw [List.filter_eq_nil_iff]
        intro x hx
        simp only [decide_eq_true_iff]
        exact fun hxb => hnb (hxb ▸ hx)
      rw [hft]
    · have hba : decide (b = a) = false :=
        decide_eq_false fun hh => (List.nodup_cons.mp hn).1 (hh ▸ ha2)
      rw [hba, if_neg Bool.false_ne_true]
      exact ih (List.nodup_cons.mp hn).2 ha2

/-- C1 (confirmed): for every (token, market) pair present in the
filtered records, `df_best` contains exactly one row for the pair, its
`volume_24h` dominates every same-pair record's volume in the
null-is-lowest order — so a null-volume record loses to any record with
a present volume — and the value is attained by a record of the pair
unless every same-pair volume is null. -/
theorem c1_best_per_pair (rs : List ContractRecord) (t m : String)
    (h : ∃ r ∈ rs, r.token = t ∧ r.market = m) :
    ((df_best rs).filter
        (fun r => decide (r.token = t ∧ r.market = m))).length = 1 ∧
    ∃ b ∈ df_best rs, b.token = t ∧ b.market = m ∧
      (∀ r ∈ rs, r.token = t → r.market = m →
        optVolLe r.volume_24h b.volume_24h) ∧
      (b.volume_24h = none ∨
        ∃ r ∈ rs, r.token = t ∧ r.market = m ∧
          r.volume_24h = b.volume_24h) := by
  obtain ⟨r0, hr0, hr0t, hr0m⟩ := h
  have hks : (t, m) ∈ pairKeys rs := by
    rw [pairKeys, List.mem_dedup, List.mem_map]
    exact ⟨r0, (mem_sortRecords rs r0).mpr hr0, by rw [hr0t, hr0m]⟩
  obtain ⟨hmax, hatt⟩ := group_max (pairGroup rs t m) t m
    (sorted_pairGroup rs t m)
    (fun r hr => ((mem_pairGroup rs t m r).mp hr).2)
  constructor
  · rw [df_best, List.filter_map]
    have hcong : (pairKeys rs).filter
        ((fun r => decide (r.token = t ∧ r.market = m)) ∘
          (fun p => bestOf rs p.1 p.2)) =
        (pairKeys rs).filter (fun p => decide (p = (t, m))) := by
      apply List.filter_congr
      intro p hp
      show decide ((bestOf rs p.1 p.2).token = t ∧
        (bestOf rs p.1 p.2).market = m) = decide (p = (t, m))
      rw [decide_eq_decide]
      show p.1 = t ∧ p.2 = m ↔ p = (t, m)
      rw [Prod.ext_iff]
    have hnd : (pairKeys rs).Nodup := by
      rw [pairKeys]
      exact List.nodup_dedup _
    rw [hcong, filter_eq_singleton_of_nodup _ _ hnd hks]
    rfl
  · refine ⟨bestOf rs t m, List.mem_map.mpr ⟨(t, m), hks, rfl⟩, rfl, rfl,
      ?_, ?_⟩
    · intro r hr hrt hrm
      exact hmax r ((mem_pairGroup rs t m r).mpr ⟨hr, hrt, hrm⟩)
    · rcases hatt with hnone | ⟨r, hrg, hre⟩
      · exact Or.inl hnone
      · obtain ⟨hrm, hrt2, hrm2⟩ := (mem_pairGroup rs t m r).mp hrg
        exact Or.inr ⟨r, hrm, hrt2, hrm2, hre⟩

/-- Witness for `c1_best_per_pair` on the two-record example. -/
theorem c1_best_per_pair_witness :
    ((df_best exRs).filter
        (fun r => decide (r.token = "BTC" ∧
          r.market = "Bybit (Futures)"))).length = 1 ∧
    ∃ b ∈ df_best exRs, b.token = "BTC" ∧ b.market = "Bybit (Futures)" ∧
      (∀ r ∈ exRs, r.token = "BTC" → r.market = "Bybit (Futures)" →
        optVolLe r.volume_24h b.volume_24h) ∧
      (b.volume_24h = none ∨
        ∃ r ∈ exRs, r.token = "BTC" ∧ r.market = "Bybit (Futures)" ∧
          r.volume_24h = b.volume_24h) :=
  c1_best_per_pair exRs "BTC" "Bybit (Futures)"
    ⟨exR1, List.mem_cons_self _ _, rfl, rfl⟩

/-! ## Theorems: claim C3, exchange allow-list -/

theorem fetch_data_keeps (now : ℚ) (items : List RawItem) (it : RawItem)
    (hit : it ∈ items) (m : String) (hm : it.market = some m)
    (hmem : m ∈ ALLOWED_MARKETS) :
    stampItem now it m ∈ fetch_data now items := by
  rw [fetch_data, List.mem_filterMap]
  refine ⟨it, hit, ?_⟩
  simp only [hm]
  exact if_pos hmem

theorem fetch_data_mem (now : ℚ) (items : List RawItem) (r : ContractRecord)
    (hr : r ∈ fetch_data now items) :
    r.market ∈ ALLOWED_MARKETS ∧
    ∃ it ∈ items, it.market = some r.market ∧
      r = stampItem now it r.market := by
  rw [fetch_data, List.mem_filterMap] at hr
  obtain ⟨it, hit, heq⟩ := hr
  cases hm : it.market with
  | none =>
    simp only [hm] at heq
    exact Option.noConfusion heq
  | some m =>
    simp only [hm] at heq
    by_cases hmem : m ∈ ALLOWED_MARKETS
    · rw [if_pos hmem] at heq
      have heq2 := Option.some_inj.mp heq
      subst heq2
      exact ⟨hmem, it, hit, hm, rfl⟩
    · rw [if_neg hmem] at heq
      exact absurd heq (by simp)

theorem fetch_data_drop (now : ℚ) (l1 l2 : List RawItem) (bad : RawItem)
    (hbad : ∀ m, bad.market = some m → m ∉ ALLOWED_MARKETS) :
    fetch_data now (l1 ++ bad :: l2) = fetch_data now (l1 ++ l2) := by
  rw [fetch_data, fetch_data, List.filterMap_append, List.filterMap_append]
  have hb : (match bad.market with
      | some m =>
          if m ∈ ALLOWED_MARKETS then some (stampItem now bad m) else none
      | none => none) = none := by
    cases hm : bad.market with
    | none => rfl
    | some m => exact if_neg (hbad m hm)
  congr 1
  exact List.filterMap_cons_none hb

/-- C3 (confirmed): the allow-list has 21 distinct display names; an
upstream item is retained by the fetch exactly when its market string is
present and literally equals an allow-listed name; a record whose market
is not allow-listed contributes nothing — removing it changes neither
the fetched record list nor either DisplayTable — and its removal is not
an error (the fetch is total). -/
theorem c3_allowlist (now : ℚ) (l1 l2 : List RawItem) (bad : RawItem)
    (hbad : ∀ m, bad.market = some m → m ∉ ALLOWED_MARKETS) :
    ALLOWED_MARKETS.length = 21 ∧ ALLOWED_MARKETS.Nodup ∧
    (∀ items : List RawItem, ∀ it ∈ items, ∀ m, it.market = some m →
      m ∈ ALLOWED_MARKETS → stampItem now it m ∈ fetch_data now items) ∧
    (∀ items : List RawItem, ∀ r ∈ fetch_data now items,
      r.market ∈ ALLOWED_MARKETS ∧ ∃ it ∈ items,
        it.market = some r.market ∧ r = stampItem now it r.market) ∧
    fetch_data now (l1 ++ bad :: l2) = fetch_data now (l1 ++ l2) ∧
    funding_table (fetch_data now (l1 ++ bad :: l2)) =
      funding_table (fetch_data now (l1 ++ l2)) ∧
    oi_table (fetch_data now (l1 ++ bad :: l2)) =
      oi_table (fetch_data now (l1 ++ l2)) := by
  have hdrop := fetch_data_drop now l1 l2 bad hbad
  exact ⟨by decide, by decide,
    fun items it hit m hm hmem => fetch_data_keeps now items it hit m hm hmem,
    fun items r hr => fetch_data_mem now items r hr,
    hdrop, by rw [hdrop], by rw [hdrop]⟩

/-- Witness for `c3_allowlist`: dropping the unknown-exchange item
leaves the fetched records unchanged. -/
theorem c3_allowlist_witness :
    ALLOWED_MARKETS.length = 21 ∧
    fetch_data 0 ([exGood] ++ exBad :: []) = fetch_data 0 ([exGood] ++ []) :=
  ⟨(c3_allowlist 0 [exGood] [] exBad
      (fun m hm => by injection hm with h; subst h; decide)).1,
   (c3_allowlist 0 [exGood] [] exBad
      (fun m hm => by injection hm with h; subst h; decide)).2.2.2.2.1⟩

/-! ## Theorems: claim C2, top-100 token limit -/

theorem mem_sortStrings (l : List String) (t : String) :
    t ∈ sortStrings l ↔ t ∈ l :=
  (List.perm_insertionSort _ l).mem_iff

theorem mem_pivotRows (rs : List ContractRecord)
    (val : ContractRecord → Option ℚ) (t : String) :
    t ∈ pivotRows rs val ↔
      ∃ r ∈ df_best rs, r.token = t ∧ val r ≠ none := by
  rw [pivotRows, mem_sortStrings, List.mem_dedup, List.mem_filterMap]
  constructor
  · rintro ⟨r, hr, hco⟩
    by_cases hv : (val r).isSome
    · rw [if_pos hv] at hco
      exact ⟨r, hr, Option.some_inj.mp hco,
        Option.isSome_iff_ne_none.mp hv⟩
    · rw [if_neg hv] at hco
      exact absurd hco (by simp)
  · rintro ⟨r, hr, ht, hv⟩
    exact ⟨r, hr,
      by rw [if_pos (Option.isSome_iff_ne_none.mpr hv), ht]⟩

theorem length_le_of_nodup_subset (l1 l2 : List String) (h1 : l1.Nodup)
    (hsub : l1 ⊆ l2) : l1.length ≤ l2.length := by
  calc l1.length = l1.toFinset.card := (List.toFinset_card_of_nodup h1).symm
    _ ≤ l2.toFinset.card := Finset.card_le_card (fun a ha => by
        rw [List.mem_toFinset] at ha ⊢
        exact hsub ha)
    _ ≤ l2.length := l2.toFinset_card_le

theorem top_tokens_sub (rs : List ContractRecord) :
    ∀ t ∈ top_tokens rs, t ∈ tokenList rs := by
  intro t ht
  exact (List.perm_insertionSort _ _).mem_iff.mp (List.mem_of_mem_take ht)

theorem top_tokens_dominates (rs : List ContractRecord) :
    ∀ t ∈ top_tokens rs, ∀ u ∈ tokenList rs, u ∉ top_tokens rs →
      tokenSum rs u ≤ tokenSum rs t := by
  intro t ht u hu hnu
  haveI h1 : IsTotal String (fun a b => tokenSum rs b ≤ tokenSum rs a) :=
    ⟨fun a b => le_total _ _⟩
  haveI h2 : IsTrans String (fun a b => tokenSum rs b ≤ tokenSum rs a) :=
    ⟨fun a b c hab hbc => le_trans hbc hab⟩
  have hsorted := List.sorted_insertionSort
    (fun a b => tokenSum rs b ≤ tokenSum rs a) (tokenList rs)
  have hu2 : u ∈ List.insertionSort
      (fun a b => tokenSum rs b ≤ tokenSum rs a) (tokenList rs) :=
    (List.perm_insertionSort _ _).mem_iff.mpr hu
  rw [← List.take_append_drop 100 (List.insertionSort
    (fun a b => tokenSum rs b ≤ tokenSum rs a) (tokenList rs))] at hu2
  rcases List.mem_append.mp hu2 with hcase | hcase
  · exact absurd hcase hnu
  · exact hsorted.rel_of_mem_take_of_mem_drop ht hcase

theorem rows_funding_eq (rs : List ContractRecord) :
    (funding_table rs).rows = (pivotRows rs (fun r => r.funding_rate)).filter
      (fun t => decide (t ∈ top_tokens rs)) := rfl

theorem rows_oi_eq (rs : List ContractRecord) :
    (oi_table rs).rows = (pivotRows rs (fun r => r.open_interest)).filter
      (fun t => decide (t ∈ top_tokens rs)) := rfl

theorem nodup_pivotRows (rs : List ContractRecord)
    (val : ContractRecord → Option ℚ) : (pivotRows rs val).Nodup :=
  ((List.perm_insertionSort _ _).nodup_iff).mpr (List.nodup_dedup _)

theorem table_rows_le (rs : List ContractRecord)
    (val : ContractRecord → Option ℚ) :
    ((pivotRows rs val).filter
      (fun t => decide (t ∈ top_tokens rs))).length ≤ 100 := by
  have hn : ((pivotRows rs val).filter
      (fun t => decide (t ∈ top_tokens rs))).Nodup :=
    (nodup_pivotRows rs val).filter _
  have hsub : ((pivotRows rs val).filter
      (fun t => decide (t ∈ top_tokens rs))) ⊆ top_tokens rs := by
    intro x hx
    exact of_decide_eq_true (List.mem_filter.mp hx).2
  calc ((pivotRows rs val).filter
      (fun t => decide (t ∈ top_tokens rs))).length
      ≤ (top_tokens rs).length := length_le_of_nodup_subset _ _ hn hsub
    _ ≤ 100 := List.length_take_le 100 _

/-- C2 (amended): each DisplayTable keeps at most 100 distinct token
rows, and its row set is the set of top-100 tokens that also have at
least one non-null value in the table's value column — pandas
`pivot_table(dropna=True)` drops a token whose values are all null, so
a top-100 token can be missing from a table.  `top_tokens` itself has
min(100, token count) elements, all observed tokens, and every kept
token's summed best-per-pair volume (nulls as 0) is at least every
dropped token's sum. -/
theorem c2_token_limit_amended (rs : List ContractRecord) :
    (funding_table rs).rows.length ≤ 100 ∧
    (oi_table rs).rows.length ≤ 100 ∧
    (∀ t, t ∈ (funding_table rs).rows ↔
      (t ∈ top_tokens rs ∧
        ∃ r ∈ df_best rs, r.token = t ∧ r.funding_rate ≠ none)) ∧
    (∀ t, t ∈ (oi_table rs).rows ↔
      (t ∈ top_tokens rs ∧
        ∃ r ∈ df_best rs, r.token = t ∧ r.open_interest ≠ none)) ∧
    (top_tokens rs).length = min 100 (tokenList rs).length ∧
    (∀ t ∈ top_tokens rs, t ∈ tokenList rs) ∧
    (∀ t ∈ top_tokens rs, ∀ u ∈ tokenList rs, u ∉ top_tokens rs →
      tokenSum rs u ≤ tokenSum rs t) := by
  refine ⟨table_rows_le rs _, table_rows_le rs _, ?_, ?_, ?_,
    top_tokens_sub rs, top_tokens_dominates rs⟩
  · intro t
    rw [rows_funding_eq, List.mem_filter, mem_pivotRows]
    constructor
    · rintro ⟨h1, h2⟩
      exact ⟨of_decide_eq_true h2, h1⟩
    · rintro ⟨h1, h2⟩
      exact ⟨h2, decide_eq_true h1⟩
  · intro t
    rw [rows_oi_eq, List.mem_filter, mem_pivotRows]
    constructor
    · rintro ⟨h1, h2⟩
      exact ⟨of_decide_eq_true h2, h1⟩
    · rintro ⟨h1, h2⟩
      exact ⟨h2, decide_eq_true h1⟩
  · rw [top_tokens, List.length_take,
      (List.perm_insertionSort _ _).length_eq]

/-- C2 counterexample: `"BTC"` is the unique token, hence the whole
top-100 set, yet the funding DisplayTable retains no row for it — the
claim that the retained tokens are exactly the top-100 tokens fails. -/
theorem c2_token_limit_counterexample :
    top_tokens exC2n = ["BTC"] ∧ tokenList exC2n = ["BTC"] ∧
    (funding_table exC2n).rows = [] :=
  ⟨by decide, by decide, by decide⟩

/-- Witness for `c2_token_limit_amended` on a one-record input whose
funding value is present: the bound holds and the token is retained. -/
theorem c2_token_limit_amended_witness :
    (funding_table exC2).rows.length ≤ 100 ∧
    "BTC" ∈ (funding_table exC2).rows :=
  ⟨(c2_token_limit_amended exC2).1,
   ((c2_token_limit_amended exC2).2.2.1 "BTC").mpr
     ⟨by decide, bestOf exC2 "BTC" "Bybit (Futures)", by decide, by decide,
       by decide⟩⟩

/-! ## Theorems: formatted cells, claims C6, C7, C8 -/

theorem padLeft_all_isDig (k n : ℕ) :
    ∀ c ∈ padLeft k (natRepr n), isDig c = true := by
  intro c hc
  rw [padLeft, List.mem_append] at hc
  rcases hc with hc | hc
  · rw [List.eq_of_mem_replicate hc]
    rfl
  · exact natRepr_all_isDig n c hc

theorem fixed4_decomp (x : ℚ) :
    ∃ sgn ip fp, fixed4 x = sgn ++ ip ++ '.' :: fp ∧
      (sgn = [] ∨ sgn = ['-']) ∧ ip ≠ [] ∧ (∀ c ∈ ip, isDig c = true) ∧
      fp.length = 4 ∧ (∀ c ∈ fp, isDig c = true) := by
  refine ⟨if x < 0 then ['-'] else [],
    natRepr ((roundHalfEven (x * 10000)).natAbs / 10000),
    padLeft 4 (natRepr ((roundHalfEven (x * 10000)).natAbs % 10000)),
    rfl, ?_, natRepr_ne_nil _, natRepr_all_isDig _, ?_, padLeft_all_isDig 4 _⟩
  · split
    · exact Or.inr rfl
    · exact Or.inl rfl
  · exact padLeft_length 4 _
      (natRepr_length_le _ 4 (by norm_num) (Nat.mod_lt _ (by norm_num)))

theorem isDig_spec (c : Char) (h : isDig c = true) : '0' ≤ c ∧ c ≤ '9' := by
  rw [isDig, Bool.and_eq_true, decide_eq_true_iff, decide_eq_true_iff] at h
  exact h

theorem isDig_not_pct (c : Char) (h : isDig c = true) : (c == '%') = false := by
  by_contra hb
  rw [Bool.not_eq_false, beq_iff_eq] at hb
  subst hb
  exact absurd (isDig_spec _ h).1 (by decide)

theorem isDig_not_dash (c : Char) (h : isDig c = true) : c ≠ '-' := by
  intro hb
  subst hb
  exact absurd (isDig_spec _ h).1 (by decide)

theorem dropWhile_head_neg (p : Char → Bool) (l : List Char)
    (h : ∀ c, l.head? = some c → p c = false) : l.dropWhile p = l := by
  cases l with
  | nil => rfl
  | cons a t => rw [List.dropWhile_cons, h a rfl, if_neg Bool.false_ne_true]

theorem dropWhile_append_head (p : Char → Bool) (l1 l2 : List Char)
    (hne : l1 ≠ []) (h : ∀ c, l1.head? = some c → p c = false) :
    (l1 ++ l2).dropWhile p = l1 ++ l2 := by
  cases l1 with
  | nil => exact absurd rfl hne
  | cons a t =>
    rw [List.cons_append, List.dropWhile_cons, h a rfl,
      if_neg Bool.false_ne_true]

theorem fixed4_ne_nil (x : ℚ) : fixed4 x ≠ [] := by
  obtain ⟨sgn, ip, fp, hx4, _, hip, _, _, _⟩ := fixed4_decomp x
  rw [hx4]
  intro hcon
  rcases List.append_eq_nil.mp hcon with ⟨_, h2⟩
  exact List.cons_ne_nil _ _ h2

theorem fixed4_head_not_pct (x : ℚ) :
    ∀ c, (fixed4 x).head? = some c → (c == '%') = false := by
  obtain ⟨sgn, ip, fp, hx4, hsgn, hip, hipd, _, _⟩ := fixed4_decomp x
  intro c hc
  rw [hx4] at hc
  rcases hsgn with hs | hs
  · subst hs
    rw [List.nil_append] at hc
    obtain ⟨c0, t, hct⟩ := List.exists_cons_of_ne_nil hip
    rw [hct, List.cons_append, List.head?_cons, Option.some_inj] at hc
    subst hc
    exact isDig_not_pct c0 (hipd c0 (hct ▸ List.mem_cons_self c0 t))
  · subst hs
    rw [List.singleton_append, List.cons_append, List.head?_cons,
      Option.some_inj] at hc
    subst hc
    rfl

theorem fixed4_last_not_pct (x : ℚ) :
    ∀ c, (fixed4 x).reverse.head? = some c → (c == '%') = false := by
  obtain ⟨sgn, ip, fp, hx4, _, _, _, hfl, hfpd⟩ := fixed4_decomp x
  intro c hc
  have hfpne : fp ≠ [] := by
    intro hcon
    rw [hcon] at hfl
    exact absurd hfl (by decide)
  rcases List.eq_nil_or_concat fp with hcon | ⟨l, cl, hlc⟩
  · exact absurd hcon hfpne
  · rw [List.concat_eq_append] at hlc
    rw [hx4, hlc] at hc
    simp only [List.reverse_append, List.reverse_cons, List.reverse_nil,
      List.nil_append, List.append_assoc, List.singleton_append,
      List.cons_append, List.head?_cons, Option.some_inj] at hc
    subst hc
    exact isDig_not_pct cl (hfpd cl (hlc ▸ List.mem_append_right l
      (List.mem_singleton.mpr rfl)))

theorem stripPct_fmtFunding (x : ℚ) :
    stripPct (fmtFunding (some x)) = fixed4 x := by
  have hdata : (fmtFunding (some x)).data = fixed4 x ++ ['%'] := rfl
  rw [stripPct, hdata,
    dropWhile_append_head _ _ _ (fixed4_ne_nil x) (fixed4_head_not_pct x),
    List.reverse_append,
    show (['%'] : List Char).reverse = ['%'] from rfl,
    List.singleton_append, List.dropWhile_cons,
    show (('%' : Char) == '%') = true from rfl, if_pos rfl,
    dropWhile_head_neg _ _ (fixed4_last_not_pct x), List.reverse_reverse]

theorem isDig_keep_dc (c : Char) (h : isDig c = true) :
    (fun c => !(c == '$' || c == ',')) c = true := by
  have hs := isDig_spec c h
  show (!(c == '$' || c == ',')) = true
  have h1 : (c == '$') = false := by
    by_contra hb
    rw [Bool.not_eq_false, beq_iff_eq] at hb
    subst hb
    exact absurd hs.1 (by decide)
  have h2 : (c == ',') = false := by
    by_contra hb
    rw [Bool.not_eq_false, beq_iff_eq] at hb
    subst hb
    exact absurd hs.1 (by decide)
  rw [h1, h2]
  rfl

theorem stripDC_fmtOI (x : ℚ) :
    stripDollarCommas (fmtOI (some x)) =
      (if x < 0 then ['-'] else []) ++ natRepr (roundHalfEven x).natAbs := by
  have hdata : (fmtOI (some x)).data =
      '$' :: ((if x < 0 then ['-'] else []) ++
        commaFmt (natRepr (roundHalfEven x).natAbs)) := rfl
  rw [stripDollarCommas, hdata, List.filter_cons]
  rw [show (!(('$' : Char) == '$' || '$' == ',')) = false from rfl,
    if_neg Bool.false_ne_true, List.filter_append]
  congr 1
  · split
    · rfl
    · rfl
  · rw [commaFmt, filter_joinComma _ _ rfl ?_, commaGroups_flatten]
    intro g hg c hc
    exact isDig_keep_dc c
      (natRepr_all_isDig _ c (commaGroups_mem _ g hg c hc))

theorem parseUnsigned_natRepr (m : ℕ) :
    parseUnsigned (natRepr m) = some (m : ℚ) := by
  have hp : ∀ c ∈ natRepr m, (fun c => !(c == '.')) c = true := by
    intro c hc
    simp [(natRepr_pred m c hc).1]
  rw [parseUnsigned]
  simp only [List.takeWhile_eq_self_iff.mpr hp,
    List.dropWhile_eq_nil_iff.mpr hp, eq_self_iff_true, if_true,
    parseNatD_natRepr, Option.map_some']
  rfl

theorem parseDecimal_int (x : ℚ) :
    parseDecimal ((if x < 0 then ['-'] else []) ++
      natRepr (roundHalfEven x).natAbs) =
      some ((roundHalfEven x : ℤ) : ℚ) := by
  by_cases hx : x < 0
  · rw [if_pos hx, List.singleton_append, parseDecimal]
    simp only [List.head?_cons, List.tail_cons, if_true]
    rw [parseUnsigned_natRepr, Option.map_some']
    congr 1
    have hn : roundHalfEven x ≤ 0 := roundHalfEven_nonpos x hx
    rw [Int.cast_natAbs, abs_of_nonpos hn]
    push_cast
    ring
  · rw [if_neg hx, List.nil_append, parseDecimal]
    obtain ⟨c0, t, hct⟩ :=
      List.exists_cons_of_ne_nil (natRepr_ne_nil (roundHalfEven x).natAbs)
    have hcne : ¬ ((natRepr (roundHalfEven x).natAbs).head? = some '-') := by
      rw [hct, List.head?_cons, Option.some_inj]
      exact isDig_not_dash c0
        (natRepr_all_isDig _ c0 (hct ▸ List.mem_cons_self c0 t))
    rw [if_neg hcne, parseUnsigned_natRepr]
    congr 1
    have hn : 0 ≤ roundHalfEven x := roundHalfEven_nonneg x (not_lt.mp hx)
    rw [Int.cast_natAbs, abs_of_nonneg hn]

theorem fmtFunding_ne_dash (x : ℚ) : fmtFunding (some x) ≠ "-" := by
  intro h
  have hd : (fmtFunding (some x)).data = ("-" : String).data := by rw [h]
  rw [show (fmtFunding (some x)).data = fixed4 x ++ ['%'] from rfl] at hd
  obtain ⟨sgn, ip, fp, hx4, _, hip, _, hfl, _⟩ := fixed4_decomp x
  have hl := congrArg List.length hd
  rw [hx4] at hl
  simp only [List.length_append, List.length_cons, hfl] at hl
  have hip1 : 0 < ip.length := List.length_pos.mpr hip
  have : ("-" : String).data.length = 1 := rfl
  omega

/-- C6 (confirmed): a null funding cell renders as the placeholder, a
present one as a signed digit string with a point and exactly four
fraction digits followed by a percent sign; a null open-interest cell
renders as the placeholder, a present one as a dollar sign followed by
the rounded amount's digits in comma-separated groups of three
(first group one to three digits) with no decimal point. -/
theorem c6_cell_format (rs : List ContractRecord) (t m : String) :
    (pivotCell rs (fun r => r.funding_rate) t m = none →
      (funding_table rs).cell t m = "-") ∧
    (∀ x, pivotCell rs (fun r => r.funding_rate) t m = some x →
      ∃ sgn ip fp, (funding_table rs).cell t m =
        String.mk ((sgn ++ ip ++ '.' :: fp) ++ ['%']) ∧
        (sgn = [] ∨ sgn = ['-']) ∧ ip ≠ [] ∧ (∀ c ∈ ip, isDig c = true) ∧
        fp.length = 4 ∧ (∀ c ∈ fp, isDig c = true)) ∧
    (pivotCell rs (fun r => r.open_interest) t m = none →
      (oi_table rs).cell t m = "-") ∧
    (∀ x, pivotCell rs (fun r => r.open_interest) t m = some x →
      ∃ sgn g0 gr, (oi_table rs).cell t m =
        String.mk ('$' :: (sgn ++ joinComma (g0 :: gr))) ∧
        (sgn = [] ∨ sgn = ['-']) ∧
        1 ≤ g0.length ∧ g0.length ≤ 3 ∧ (∀ g ∈ gr, g.length = 3) ∧
        (∀ c ∈ g0, isDig c = true) ∧
        (∀ g ∈ gr, ∀ c ∈ g, isDig c = true) ∧
        (g0 :: gr).flatten = natRepr (roundHalfEven x).natAbs) := by
  refine ⟨?_, ?_, ?_, ?_⟩
  · intro h
    show fmtFunding (pivotCell rs (fun r => r.funding_rate) t m) = "-"
    rw [h]
    rfl
  · intro x h
    obtain ⟨sgn, ip, fp, hx4, hsgn, hip, hipd, hfl, hfpd⟩ := fixed4_decomp x
    refine ⟨sgn, ip, fp, ?_, hsgn, hip, hipd, hfl, hfpd⟩
    show fmtFunding (pivotCell rs (fun r => r.funding_rate) t m) = _
    rw [h]
    show String.mk (fixed4 x ++ ['%']) = _
    rw [hx4]
  · intro h
    show fmtOI (pivotCell rs (fun r => r.open_interest) t m) = "-"
    rw [h]
    rfl
  · intro x h
    obtain ⟨g0, gr, hgg, h1, h3, hlen3⟩ :=
      commaGroups_spec (natRepr (roundHalfEven x).natAbs) (natRepr_ne_nil _)
    refine ⟨if x < 0 then ['-'] else [], g0, gr, ?_, ?_, h1, h3, hlen3,
      ?_, ?_, ?_⟩
    · show fmtOI (pivotCell rs (fun r => r.open_interest) t m) = _
      rw [h]
      show String.mk ('$' :: (_ ++ commaFmt (natRepr (roundHalfEven x).natAbs))) = _
      rw [commaFmt, hgg]
    · split
      · exact Or.inr rfl
      · exact Or.inl rfl
    · intro c hc
      exact natRepr_all_isDig _ c
        (commaGroups_mem _ g0 (hgg ▸ List.mem_cons_self g0 gr) c hc)
    · intro g hg c hc
      exact natRepr_all_isDig _ c
        (commaGroups_mem _ g (hgg ▸ List.mem_cons_of_mem g0 hg) c hc)
    · rw [← hgg, commaGroups_flatten]

/-- Witness for `c6_cell_format` on the two-record example: the present
BTC/Bybit funding and open-interest cells have the stated shapes. -/
theorem c6_cell_format_witness :
    pivotCell exRs (fun r => r.funding_rate) "BTC" "Bybit (Futures)" =
      some 1 ∧
    (∃ sgn ip fp,
      (funding_table exRs).cell "BTC" "Bybit (Futures)" =
        String.mk ((sgn ++ ip ++ '.' :: fp) ++ ['%']) ∧
      (sgn = [] ∨ sgn = ['-']) ∧ ip ≠ [] ∧ (∀ c ∈ ip, isDig c = true) ∧
      fp.length = 4 ∧ (∀ c ∈ fp, isDig c = true)) ∧
    (∃ sgn g0 gr, (oi_table exRs).cell "BTC" "Bybit (Futures)" =
      String.mk ('$' :: (sgn ++ joinComma (g0 :: gr))) ∧
      (sgn = [] ∨ sgn = ['-']) ∧
      1 ≤ g0.length ∧ g0.length ≤ 3 ∧ (∀ g ∈ gr, g.length = 3) ∧
      (∀ c ∈ g0, isDig c = true) ∧
      (∀ g ∈ gr, ∀ c ∈ g, isDig c = true) ∧
      (g0 :: gr).flatten = natRepr (roundHalfEven 1000).natAbs) :=
  ⟨by decide,
   (c6_cell_format exRs "BTC" "Bybit (Futures)").2.1 1 (by decide),
   (c6_cell_format exRs "BTC" "Bybit (Futures)").2.2.2 1000 (by decide)⟩

/-- C7 (confirmed): the classifier gives the placeholder cell no style;
on any formatted funding cell it parses the numeric percentage back out
of the string and styles it green (bullish) below 0.005, red (bearish)
above 0.01, and white (neutral) otherwise. -/
theorem c7_color_classification (x : ℚ) :
    color_funding "-" = "" ∧
    ∃ num : ℚ, parseDecimal (stripPct (fmtFunding (some x))) = some num ∧
      color_funding (fmtFunding (some x)) =
        (if num < 0.005 then "color: green;"
         else if num > 0.01 then "color: red;" else "color: white;") := by
  refine ⟨rfl, (roundHalfEven (x * 10000) : ℚ) / 10000, ?_, ?_⟩
  · rw [stripPct_fmtFunding, parseDecimal_fixed4]
  · rw [color_funding, if_neg (fmtFunding_ne_dash x), stripPct_fmtFunding,
      parseDecimal_fixed4]

/-- C8 (confirmed): formatting then parsing a funding value recovers it
to four decimal places — the parsed number is an integer multiple of
1/10000 within half of 1/10000 of the original — and formatting then
parsing an open-interest value after stripping the dollar sign and the
commas recovers the integer-rounded value. -/
theorem c8_format_parse_roundtrip (v : ℚ) :
    (∃ w : ℚ, parseDecimal (stripPct (fmtFunding (some v))) = some w ∧
      w * 10000 = ((roundHalfEven (v * 10000) : ℤ) : ℚ) ∧
      |w - v| ≤ 1 / 20000) ∧
    (∃ z : ℤ, parseDecimal (stripDollarCommas (fmtOI (some v))) =
        some ((z : ℤ) : ℚ) ∧
      z = roundHalfEven v ∧ |((z : ℤ) : ℚ) - v| ≤ 1 / 2) := by
  constructor
  · refine ⟨(roundHalfEven (v * 10000) : ℚ) / 10000, ?_, ?_, ?_⟩
    · rw [stripPct_fmtFunding, parseDecimal_fixed4]
    · rw [div_mul_cancel₀]
      norm_num
    · have hd := roundHalfEven_dist (v * 10000)
      rw [abs_le] at hd ⊢
      constructor <;> [linarith [hd.1]; linarith [hd.2]]
  · refine ⟨roundHalfEven v, ?_, rfl, ?_⟩
    · rw [stripDC_fmtOI, parseDecimal_int]
    · exact roundHalfEven_dist v
